import Mathlib

/-!
# Verification of the `mcclient` Minecraft protocol value types

Shallow embedding of `src/mc/mctypes.rs`: the VarInt codec
(`to_varint`, `from_varint_bytes`), the `VarInt` and `MCString`
value types and their `MCType` trait implementations.

Modelling conventions:
* A Rust `u8` byte is a `Nat` (claims restrict quantifiers to `< 256`).
* A Rust `i32` at the API boundary is an `Int` in `[-2^31, 2^31)`.
  Inside the codec loops every shift/mask acts on the unsigned 32-bit
  reinterpretation of the value, so the loops are stated on the
  unsigned bit pattern, a `Nat` below `2^32`, with wrap-around written
  as explicit `% 2^32`.
* A Rust `String` is represented by its UTF-8 byte sequence (`List Nat`),
  so `value.len()` is the list length.
* A Rust panic (`panic!`, `unwrap()` failure, the VarInt-too-big abort)
  is modelled by an `Option` result being `none`.
-/

namespace MCTypes

/-- Unsigned 32-bit reinterpretation of an `i32` value (its two's
complement bit pattern). -/
def u32_of_i32 (v : Int) : Nat := (v % 2 ^ 32).toNat

/-- Signed reading of an unsigned 32-bit pattern, back to an `i32`. -/
def i32_of_u32 (n : Nat) : Int :=
  if n < 2 ^ 31 then (n : Int) else (n : Int) - 2 ^ 32

/-- The loop of `to_varint` (mctypes.rs lines 179-198), stated on the
unsigned 32-bit pattern of the i32 `value`.

The source tests `value & !SEGMENT_BITS == 0`; on the 32-bit pattern the
i32 constant `!0x7F` is `0xFFFFFF80`.  The terminal `value as u8` cast is
`% 256`; the continuation byte is `(value & SEGMENT_BITS) | CONTINUE_BIT`;
the update `value = ((value as u32) >> 7) as i32` is the logical shift
`>>> 7` on the pattern. -/
def to_varint_u32 (n : Nat) : List Nat :=
  if h : n &&& 0xFFFFFF80 = 0 then
    [n % 256]
  else
    ((n &&& 0x7F) ||| 0x80) :: to_varint_u32 (n >>> 7)
termination_by n
decreasing_by
  have hn : n ≠ 0 := by
    intro h0
    subst h0
    simp at h
  simp only [Nat.shiftRight_eq_div_pow]
  exact Nat.div_lt_self (Nat.pos_of_ne_zero hn) (by norm_num)

/-- `fn to_varint(mut value: i32) -> Vec<u8>` (mctypes.rs lines 179-198). -/
def to_varint (value : Int) : List Nat :=
  to_varint_u32 (u32_of_i32 value)

/-- The loop of `from_varint_bytes` (mctypes.rs lines 162-174), on
unsigned 32-bit patterns.  Per iteration the source does
`value |= ((*b as i32) & SEGMENT_BITS) << pos` (an i32 shift, so the
shifted segment is truncated to 32 bits), then breaks when the
continuation bit `0x80` of the byte is clear, else advances `pos` by 7
and panics (`none`) once `pos >= 32`. -/
def from_varint_loop : List Nat → Nat → Nat → Option Nat
  | [], value, _pos => some value
  | b :: rest, value, pos =>
    let value' := value ||| ((b &&& 0x7F) <<< pos) % 2 ^ 32
    if b &&& 0x80 = 0 then
      some value'
    else if pos + 7 ≥ 32 then
      none
    else
      from_varint_loop rest value' (pos + 7)

/-- `fn from_varint_bytes(bytes: &[u8]) -> i32` (mctypes.rs lines
155-177).  The `panic!("VarInt is too big (>5 bytes)")` is `none`. -/
def from_varint_bytes (bytes : List Nat) : Option Int :=
  (from_varint_loop bytes 0 0).map i32_of_u32

/-- `struct VarInt { bytes: Vec<u8>, value: i32 }` (mctypes.rs 66-69). -/
structure VarInt where
  bytes : List Nat
  value : Int
deriving DecidableEq

/-- `VarInt::from_i32` / `impl From<i32> for VarInt` (mctypes.rs 71-76,
112-114): `VarInt { bytes: to_varint(value), value }`. -/
def VarInt.from_i32 (value : Int) : VarInt :=
  { bytes := to_varint value, value := value }

/-- `VarInt::from_bytes` / `impl From<&[u8]> for VarInt` (mctypes.rs
78-93, 127-129): `VarInt { bytes: bytes.to_vec(), value:
from_varint_bytes(bytes) }`; the decoder's panic propagates. -/
def VarInt.from_bytes (bytes : List Nat) : Option VarInt :=
  (from_varint_bytes bytes).map fun v => { bytes := bytes, value := v }

/-- `impl MCType for VarInt`, `fn to_bytes` (mctypes.rs 96-102): a copy
of the stored byte vector. -/
def VarInt.to_bytes (self : VarInt) : List Nat :=
  self.bytes

/-- `impl MCType for VarInt`, `fn size` (mctypes.rs 104-106):
`self.bytes.len().try_into().unwrap()`, which panics (`none`) when the
`usize` length does not fit an `i32`. -/
def VarInt.size (self : VarInt) : Option Int :=
  if self.bytes.length ≤ 2 ^ 31 - 1 then some (self.bytes.length : Int)
  else none

/-- `VarInt::len` (mctypes.rs 132-134): `self.bytes.len() as i32`, a
wrapping cast of the `usize` length. -/
def VarInt.len (self : VarInt) : Int :=
  i32_of_u32 (self.bytes.length % 2 ^ 32)

/-- `VarInt::set` (mctypes.rs 149-152): `self.value = value; self.bytes
= to_varint(self.value)`. -/
def VarInt.set (self : VarInt) (value : Int) : VarInt :=
  let self' := { self with value := value }
  { self' with bytes := to_varint self'.value }

/-- `struct MCString { size: VarInt, string: String }` (mctypes.rs
17-20); the string is represented by its UTF-8 bytes. -/
structure MCString where
  size : VarInt
  string : List Nat
deriving DecidableEq

/-- `impl From<String> for MCString` (mctypes.rs 22-34): panics (`none`)
when `value.len()` does not fit an `i32`; otherwise stores
`VarInt::from(size)` and the string. -/
def MCString.fromString (value : List Nat) : Option MCString :=
  if value.length ≤ 2 ^ 31 - 1 then
    some { size := VarInt.from_i32 (value.length : Int), string := value }
  else
    none

/-- `impl MCType for MCString`, `fn to_bytes` (mctypes.rs 37-44): the
size prefix's bytes followed by the string's UTF-8 bytes. -/
def MCString.to_bytes (self : MCString) : List Nat :=
  self.size.to_bytes ++ self.string

/-- `impl MCType for MCString`, `fn size` (mctypes.rs 46-48):
`self.size.len() + TryInto::<i32>::try_into(self.string.len()).unwrap()`.
The `unwrap` panics (`none`) when the string length does not fit an
`i32`; the `i32` addition is modelled as failing (`none`) when the exact
sum leaves the `i32` range (overflow panic in a checked build). -/
def MCString.size' (self : MCString) : Option Int :=
  if self.string.length ≤ 2 ^ 31 - 1 then
    let sum : Int := self.size.len + (self.string.length : Int)
    if -2 ^ 31 ≤ sum ∧ sum ≤ 2 ^ 31 - 1 then some sum else none
  else
    none

/-- `MCString::len` (mctypes.rs 53-55): `self.size.len()`. -/
def MCString.len (self : MCString) : Int :=
  self.size.len

lemma testBit_hi_mask (i : Nat) :
    (0xFFFFFF80 : Nat).testBit i = (decide (7 ≤ i) && decide (i < 32)) := by
  rw [show (0xFFFFFF80 : Nat) = 2 ^ 7 * (2 ^ 25 - 1) by norm_num,
      Nat.testBit_mul_pow_two, Nat.testBit_two_pow_sub_one]
  by_cases h : 7 ≤ i
  · simp only [ge_iff_le, h, decide_True, Bool.true_and]
    rw [decide_eq_decide]
    omega
  · simp [h]

lemma and_hi_mask_eq_zero {n : Nat} (hn : n < 2 ^ 32) :
    n &&& 0xFFFFFF80 = 0 ↔ n < 128 := by
  constructor
  · intro h
    by_contra hge
    push_neg at hge
    have hp : n ≥ 2 ^ 7 := by omega
    obtain ⟨i, hi, hbit⟩ := Nat.ge_two_pow_implies_high_bit_true hp
    have hi32 : i < 32 := by
      by_contra h32
      have hlt : n < 2 ^ i :=
        lt_of_lt_of_le hn (Nat.pow_le_pow_right (by norm_num) (by omega))
      rw [Nat.testBit_lt_two_pow hlt] at hbit
      exact Bool.false_ne_true hbit
    have hb : (n &&& 0xFFFFFF80).testBit i = true := by
      rw [Nat.testBit_and, hbit, testBit_hi_mask]
      simp [hi, hi32]
    rw [h, Nat.zero_testBit] at hb
    exact Bool.false_ne_true hb
  · intro h
    apply Nat.eq_of_testBit_eq
    intro i
    rw [Nat.testBit_and, testBit_hi_mask, Nat.zero_testBit]
    by_cases h7 : 7 ≤ i
    · have hlt : n < 2 ^ i := by
        calc n < 128 := h
          _ = 2 ^ 7 := by norm_num
          _ ≤ 2 ^ i := Nat.pow_le_pow_right (by norm_num) h7
      simp [Nat.testBit_lt_two_pow hlt]
    · simp [h7]

lemma segment_or_cont (n : Nat) : (n &&& 0x7F) ||| 0x80 = n % 128 + 128 := by
  have hlt : n % 128 < 2 ^ 7 := by omega
  have h8 := Nat.mul_add_lt_is_or hlt 1
  norm_num at h8
  have h7 : n &&& 0x7F = n % 128 := by
    have h := Nat.and_pow_two_sub_one_eq_mod n 7
    norm_num at h
    exact h
  rw [h7, Nat.or_comm, ← h8]
  omega

lemma and_128_eq_zero_iff {b : Nat} (hb : b < 256) : b &&& 0x80 = 0 ↔ b < 128 := by
  constructor
  · intro h
    by_contra hge
    push_neg at hge
    have hb7 : b.testBit 7 = true := by
      rw [Nat.testBit_to_div_mod]
      simp only [decide_eq_true_eq]
      omega
    have hx : (b &&& 0x80).testBit 7 = true := by
      rw [Nat.testBit_and, hb7]
      decide
    rw [h, Nat.zero_testBit] at hx
    exact Bool.false_ne_true hx
  · intro h
    apply Nat.eq_of_testBit_eq
    intro i
    rw [Nat.testBit_and, Nat.zero_testBit]
    rcases eq_or_ne i 7 with rfl | hne
    · have hlt : b < 2 ^ 7 := by omega
      simp [Nat.testBit_lt_two_pow hlt]
    · have hm : (0x80 : Nat).testBit i = false := by
        rw [show (0x80 : Nat) = 2 ^ 7 by norm_num, Nat.testBit_two_pow]
        simp [Ne.symm hne]
      simp [hm]

lemma to_varint_u32_of_lt {n : Nat} (hn : n < 2 ^ 32) (h : n < 128) :
    to_varint_u32 n = [n] := by
  rw [to_varint_u32, dif_pos ((and_hi_mask_eq_zero hn).mpr h)]
  rw [Nat.mod_eq_of_lt (by omega)]

lemma to_varint_u32_of_ge {n : Nat} (hn : n < 2 ^ 32) (h : 128 ≤ n) :
    to_varint_u32 n = (n % 128 + 128) :: to_varint_u32 (n / 128) := by
  rw [to_varint_u32,
      dif_neg (fun hc => absurd ((and_hi_mask_eq_zero hn).mp hc) (by omega)),
      segment_or_cont, Nat.shiftRight_eq_div_pow]
lemma from_varint_loop_cons (b : Nat) (rest : List Nat) (value pos : Nat) :
    from_varint_loop (b :: rest) value pos =
      (if b &&& 0x80 = 0 then some (value ||| ((b &&& 0x7F) <<< pos) % 2 ^ 32)
       else if pos + 7 ≥ 32 then none
       else from_varint_loop rest (value ||| ((b &&& 0x7F) <<< pos) % 2 ^ 32)
              (pos + 7)) := rfl

lemma shiftLeft_div_mod_or (n pos : Nat) :
    (n % 128) <<< pos ||| (n / 128) <<< (pos + 7) = n <<< pos := by
  rw [Nat.shiftLeft_eq, Nat.shiftLeft_eq, Nat.shiftLeft_eq]
  have hb : n % 128 * 2 ^ pos < 2 ^ (pos + 7) := by
    have h1 : n % 128 < 2 ^ 7 := by omega
    calc n % 128 * 2 ^ pos < 2 ^ 7 * 2 ^ pos :=
          Nat.mul_lt_mul_of_lt_of_le h1 (le_refl _) (Nat.two_pow_pos pos)
      _ = 2 ^ (pos + 7) := by rw [Nat.pow_add]; ring
  have h := Nat.mul_add_lt_is_or hb (n / 128)
  rw [Nat.or_comm, show n / 128 * 2 ^ (pos + 7) = 2 ^ (pos + 7) * (n / 128) by ring,
      ← h]
  calc 2 ^ (pos + 7) * (n / 128) + n % 128 * 2 ^ pos
      = (128 * (n / 128) + n % 128) * 2 ^ pos := by rw [Nat.pow_add]; ring
    _ = n * 2 ^ pos := by rw [Nat.div_add_mod]

lemma from_varint_loop_encode (n : Nat) : ∀ (pos v : Nat) (suffix : List Nat),
    pos ≤ 31 → n < 2 ^ (32 - pos) → v < 2 ^ 32 →
    from_varint_loop (to_varint_u32 n ++ suffix) v pos =
      some (v ||| n <<< pos) := by
  induction n using Nat.strong_induction_on with
  | _ n ih =>
    intro pos v suffix hpos hn hv
    have hn32 : n < 2 ^ 32 :=
      lt_of_lt_of_le hn (Nat.pow_le_pow_right (by norm_num) (by omega))
    by_cases h : n < 128
    · rw [to_varint_u32_of_lt hn32 h, List.cons_append, List.nil_append,
          from_varint_loop_cons,
          if_pos ((and_128_eq_zero_iff (by omega)).mpr h)]
      have h7 : n &&& 0x7F = n := by
        have hh := Nat.and_pow_two_sub_one_eq_mod n 7
        norm_num at hh
        rw [hh]
        omega
      have hlt : n <<< pos < 2 ^ 32 := by
        rw [Nat.shiftLeft_eq]
        calc n * 2 ^ pos < 2 ^ (32 - pos) * 2 ^ pos :=
              Nat.mul_lt_mul_of_lt_of_le hn (le_refl _) (Nat.two_pow_pos pos)
          _ = 2 ^ 32 := by rw [← Nat.pow_add]; congr 1; omega
      rw [h7, Nat.mod_eq_of_lt hlt]
    · push_neg at h
      have hpos25 : pos < 25 := by
        by_contra hc
        push_neg at hc
        have : (2 : Nat) ^ (32 - pos) ≤ 2 ^ 7 :=
          Nat.pow_le_pow_right (by norm_num) (by omega)
        norm_num at this
        omega
      rw [to_varint_u32_of_ge hn32 h, List.cons_append, from_varint_loop_cons,
          if_neg (fun hc =>
            absurd ((and_128_eq_zero_iff (by omega)).mp hc) (by omega)),
          if_neg (by omega)]
      have h7 : (n % 128 + 128) &&& 0x7F = n % 128 := by
        have hh := Nat.and_pow_two_sub_one_eq_mod (n % 128 + 128) 7
        norm_num at hh
        exact hh
      have hsh : (n % 128) <<< pos < 2 ^ 32 := by
        rw [Nat.shiftLeft_eq]
        calc n % 128 * 2 ^ pos < 2 ^ 7 * 2 ^ pos :=
              Nat.mul_lt_mul_of_lt_of_le (by omega) (le_refl _)
                (Nat.two_pow_pos pos)
          _ = 2 ^ (pos + 7) := by rw [Nat.pow_add]; ring
          _ ≤ 2 ^ 32 := Nat.pow_le_pow_right (by norm_num) (by omega)
      rw [h7, Nat.mod_eq_of_lt hsh]
      have hdiv : n / 128 < 2 ^ (32 - (pos + 7)) := by
        rw [Nat.div_lt_iff_lt_mul (by norm_num : (0:Nat) < 128)]
        calc n < 2 ^ (32 - pos) := hn
          _ = 2 ^ (32 - (pos + 7)) * 128 := by
              rw [show (128 : Nat) = 2 ^ 7 by norm_num, ← Nat.pow_add]
              congr 1
              omega
      have hv' : v ||| (n % 128) <<< pos < 2 ^ 32 :=
        Nat.or_lt_two_pow hv hsh
      rw [ih (n / 128) (Nat.div_lt_self (by omega) (by norm_num)) (pos + 7) _
            suffix (by omega) hdiv hv']
      rw [Nat.or_assoc, shiftLeft_div_mod_or]

lemma from_varint_loop_encode_zero (n : Nat) (hn : n < 2 ^ 32)
    (suffix : List Nat) :
    from_varint_loop (to_varint_u32 n ++ suffix) 0 0 = some n := by
  have h := from_varint_loop_encode n 0 0 suffix (by norm_num) (by simpa) (by norm_num)
  simpa using h
lemma to_varint_u32_ne_nil (n : Nat) : to_varint_u32 n ≠ [] := by
  rw [to_varint_u32]
  split <;> simp

lemma to_varint_u32_length_le :
    ∀ (k n : Nat), 1 ≤ k → n < 2 ^ 32 → n < 2 ^ (7 * k) →
      (to_varint_u32 n).length ≤ k := by
  intro k
  induction k with
  | zero => intro n h _ _; omega
  | succ k ih =>
    intro n _ hn32 hn
    by_cases h : n < 128
    · rw [to_varint_u32_of_lt hn32 h]
      simp
    · push_neg at h
      have hk : 1 ≤ k := by
        by_contra hc
        have hk0 : k = 0 := by omega
        subst hk0
        norm_num at hn
        omega
      rw [to_varint_u32_of_ge hn32 h]
      have hd : n / 128 < 2 ^ (7 * k) := by
        rw [Nat.div_lt_iff_lt_mul (by norm_num : (0:Nat) < 128)]
        calc n < 2 ^ (7 * (k + 1)) := hn
          _ = 2 ^ (7 * k) * 128 := by
              rw [show (128 : Nat) = 2 ^ 7 by norm_num]
              ring
      have := ih (n / 128) hk (by omega) hd
      simpa using this

lemma to_varint_u32_length_gt :
    ∀ (k n : Nat), n < 2 ^ 32 → 2 ^ (7 * k) ≤ n →
      k + 1 ≤ (to_varint_u32 n).length := by
  intro k
  induction k with
  | zero =>
    intro n _ _
    have := to_varint_u32_ne_nil n
    have := List.length_pos.mpr this
    omega
  | succ k ih =>
    intro n hn32 hn
    have h128 : 128 ≤ n := by
      calc (128 : Nat) = 2 ^ (7 * 1) := by norm_num
        _ ≤ 2 ^ (7 * (k + 1)) := Nat.pow_le_pow_right (by norm_num) (by omega)
        _ ≤ n := hn
    rw [to_varint_u32_of_ge hn32 h128]
    have hd : 2 ^ (7 * k) ≤ n / 128 := by
      rw [Nat.le_div_iff_mul_le (by norm_num : (0:Nat) < 128)]
      calc 2 ^ (7 * k) * 128 = 2 ^ (7 * (k + 1)) := by
            rw [show (128 : Nat) = 2 ^ 7 by norm_num]
            ring
        _ ≤ n := hn
    have := ih (n / 128) (by omega) hd
    simpa using this

lemma to_varint_u32_shape :
    ∀ n : Nat, n < 2 ^ 32 → ∃ (init : List Nat) (lastb : Nat),
      to_varint_u32 n = init ++ [lastb] ∧ lastb < 128 ∧
        ∀ b ∈ init, 128 ≤ b ∧ b < 256 := by
  intro n
  induction n using Nat.strong_induction_on with
  | _ n ih =>
    intro hn32
    by_cases h : n < 128
    · exact ⟨[], n, by rw [to_varint_u32_of_lt hn32 h]; rfl, h, by simp⟩
    · push_neg at h
      obtain ⟨init, lastb, heq, h1, h2⟩ :=
        ih (n / 128) (Nat.div_lt_self (by omega) (by norm_num)) (by omega)
      refine ⟨(n % 128 + 128) :: init, lastb, ?_, h1, ?_⟩
      · rw [to_varint_u32_of_ge hn32 h, heq]
        rfl
      · intro b hb
        rcases List.mem_cons.mp hb with rfl | hb'
        · omega
        · exact h2 b hb'

lemma from_varint_loop_none_iff :
    ∀ (bs : List Nat) (v k : Nat), k ≤ 4 →
      (from_varint_loop bs v (28 - 7 * k) = none ↔
        (k + 1 ≤ bs.length ∧ ∀ b ∈ bs.take (k + 1), ¬b &&& 0x80 = 0)) := by
  intro bs
  induction bs with
  | nil => intro v k _; simp [from_varint_loop]
  | cons b rest ih =>
    intro v k hk
    rw [from_varint_loop_cons]
    by_cases hb : b &&& 0x80 = 0
    · rw [if_pos hb]
      simp [List.take_succ_cons, hb]
    · rw [if_neg hb]
      by_cases hk0 : k = 0
      · subst hk0
        rw [if_pos (by omega)]
        simp [List.take_succ_cons, hb]
      · rw [if_neg (by omega), show 28 - 7 * k + 7 = 28 - 7 * (k - 1) by omega,
            ih _ (k - 1) (by omega), show k - 1 + 1 = k by omega]
        simp only [List.take_succ_cons, List.length_cons, List.mem_cons]
        constructor
        · rintro ⟨hl, hall⟩
          refine ⟨by omega, ?_⟩
          rintro x (rfl | hx)
          · exact hb
          · exact hall x hx
        · rintro ⟨hl, hall⟩
          exact ⟨by omega, fun x hx => hall x (Or.inr hx)⟩

lemma from_varint_bytes_eq_none_iff (bs : List Nat) :
    from_varint_bytes bs = none ↔
      (5 ≤ bs.length ∧ ∀ b ∈ bs.take 5, ¬b &&& 0x80 = 0) := by
  unfold from_varint_bytes
  rw [Option.map_eq_none']
  have h := from_varint_loop_none_iff bs 0 4 (by norm_num)
  norm_num at h
  exact h
lemma u32_of_i32_lt (v : Int) : u32_of_i32 v < 2 ^ 32 := by
  unfold u32_of_i32
  omega

lemma i32_of_u32_u32_of_i32 (v : Int) (h1 : -2 ^ 31 ≤ v) (h2 : v < 2 ^ 31) :
    i32_of_u32 (u32_of_i32 v) = v := by
  unfold u32_of_i32 i32_of_u32
  split <;> omega

/-- Claim C1: For every signed 32-bit integer `v`, decoding the encoding of
`v` yields `v` back: `from_varint_bytes(to_varint(v)) == v`. -/
theorem varint_roundtrip (v : Int) (h1 : -2 ^ 31 ≤ v) (h2 : v < 2 ^ 31) :
    from_varint_bytes (to_varint v) = some v := by
  unfold from_varint_bytes to_varint
  have h := from_varint_loop_encode_zero (u32_of_i32 v) (u32_of_i32_lt v) []
  rw [List.append_nil] at h
  rw [h, Option.map_some']
  rw [i32_of_u32_u32_of_i32 v h1 h2]

/-- Witness for `varint_roundtrip` at `v = 25565`. -/
theorem varint_roundtrip_witness :
    from_varint_bytes (to_varint 25565) = some 25565 :=
  varint_roundtrip 25565 (by norm_num) (by norm_num)

/-- Claim C7: For every signed 32-bit `v` and every byte suffix, decoding
`to_varint v ++ suffix` returns `v`: the decoder stops at the first byte
with the high bit clear and ignores all trailing bytes. -/
theorem decoder_ignores_trailing_bytes (v : Int) (suffix : List Nat)
    (h1 : -2 ^ 31 ≤ v) (h2 : v < 2 ^ 31) :
    from_varint_bytes (to_varint v ++ suffix) = some v := by
  unfold from_varint_bytes to_varint
  rw [from_varint_loop_encode_zero (u32_of_i32 v) (u32_of_i32_lt v) suffix,
      Option.map_some']
  rw [i32_of_u32_u32_of_i32 v h1 h2]

/-- Witness for `decoder_ignores_trailing_bytes` at `v = -1` with a
2-byte garbage suffix. -/
theorem decoder_ignores_trailing_bytes_witness :
    from_varint_bytes (to_varint (-1) ++ [0x07, 0xFF]) = some (-1) :=
  decoder_ignores_trailing_bytes (-1) [0x07, 0xFF] (by norm_num) (by norm_num)

/-- Claim C4: A 6-byte buffer whose bytes all have the continuation bit
`0x80` set fails to decode (the `VarInt is too big` panic); more
generally decoding fails whenever the first five bytes all have the
continuation bit set, i.e. whenever the bit cursor would reach 32
without a terminating byte. -/
theorem malformed_decode_fails :
    (∀ bs : List Nat, (∀ b ∈ bs, b < 256) → bs.length = 6 →
        (∀ b ∈ bs, b &&& 0x80 ≠ 0) → from_varint_bytes bs = none) ∧
    (∀ bs : List Nat, (∀ b ∈ bs, b < 256) → 5 ≤ bs.length →
        (∀ b ∈ bs.take 5, b &&& 0x80 ≠ 0) → from_varint_bytes bs = none) := by
  have h2 : ∀ bs : List Nat, 5 ≤ bs.length →
      (∀ b ∈ bs.take 5, b &&& 0x80 ≠ 0) → from_varint_bytes bs = none :=
    fun bs h5 hc => (from_varint_bytes_eq_none_iff bs).mpr ⟨h5, hc⟩
  exact ⟨fun bs _ h6 hc =>
      h2 bs (by omega) (fun b hbm => hc b (List.take_subset 5 bs hbm)),
    fun bs _ => h2 bs⟩

/-- Witness for `malformed_decode_fails` on six `0x80` bytes. -/
theorem malformed_decode_fails_witness :
    from_varint_bytes [0x80, 0x80, 0x80, 0x80, 0x80, 0x80] = none :=
  malformed_decode_fails.1 [0x80, 0x80, 0x80, 0x80, 0x80, 0x80]
    (by decide) (by decide) (by decide)

/-- Claim C10: `from_varint_bytes` fails exactly when the buffer has at
least 5 bytes and each of the first 5 has the continuation bit set;
a shorter buffer with no terminating byte still returns the partially
accumulated value, and the empty buffer decodes to `0`. -/
theorem decode_failure_characterization :
    (∀ bs : List Nat, (∀ b ∈ bs, b < 256) →
        (from_varint_bytes bs = none ↔
          (5 ≤ bs.length ∧ ∀ b ∈ bs.take 5, b &&& 0x80 ≠ 0))) ∧
    (∀ bs : List Nat, (∀ b ∈ bs, b < 256) → bs.length < 5 →
        (∀ b ∈ bs, b &&& 0x80 ≠ 0) →
        ∃ n : Int, from_varint_bytes bs = some n) ∧
    from_varint_bytes [] = some 0 := by
  refine ⟨fun bs _ => ?_, fun bs _ h5 _ => ?_, by decide⟩
  · have h := from_varint_bytes_eq_none_iff bs
    simpa using h
  · rcases h : from_varint_bytes bs with _ | n
    · rw [from_varint_bytes_eq_none_iff] at h
      omega
    · exact ⟨n, rfl⟩

/-- Witness for `decode_failure_characterization` on a truncated
all-continuation buffer. -/
theorem decode_failure_characterization_witness :
    ∃ n : Int, from_varint_bytes [0x80, 0x80] = some n :=
  decode_failure_characterization.2.1 [0x80, 0x80]
    (by decide) (by decide) (by decide)

/-- Claim C9: `set` leaves the `VarInt` in exactly the state a fresh
`VarInt::from_i32` construction produces: both fields are replaced
together, no partial update is observable. -/
theorem set_equiv_from_i32 (x : VarInt) (v : Int)
    (_h1 : -2 ^ 31 ≤ v) (_h2 : v < 2 ^ 31) :
    x.set v = VarInt.from_i32 v := rfl

/-- Witness for `set_equiv_from_i32`. -/
theorem set_equiv_from_i32_witness :
    (VarInt.from_i32 3).set (-7) = VarInt.from_i32 (-7) :=
  set_equiv_from_i32 (VarInt.from_i32 3) (-7) (by norm_num) (by norm_num)
/-- Claim C6: Every i32 encodes to 1..5 bytes, the last byte has the high
bit `0x80` clear, every earlier byte has it set (the encoding is
minimal), and every negative value encodes to exactly 5 bytes. -/
theorem varint_encoding_minimal (v : Int) (h1 : -2 ^ 31 ≤ v) (h2 : v < 2 ^ 31) :
    1 ≤ (to_varint v).length ∧ (to_varint v).length ≤ 5 ∧
    (∀ b, (to_varint v).getLast? = some b → b &&& 0x80 = 0) ∧
    (∀ b ∈ (to_varint v).dropLast, b &&& 0x80 ≠ 0) ∧
    (v < 0 → (to_varint v).length = 5) := by
  obtain ⟨init, lastb, heq, hlast, hinit⟩ :=
    to_varint_u32_shape (u32_of_i32 v) (u32_of_i32_lt v)
  unfold to_varint
  have hle : (to_varint_u32 (u32_of_i32 v)).length ≤ 5 := by
    refine to_varint_u32_length_le 5 _ (by norm_num) (u32_of_i32_lt v) ?_
    have h35 : (2 : Nat) ^ 32 ≤ 2 ^ (7 * 5) :=
      Nat.pow_le_pow_right (by norm_num) (by norm_num)
    exact lt_of_lt_of_le (u32_of_i32_lt v) h35
  refine ⟨?_, hle, ?_, ?_, ?_⟩
  · have := List.length_pos.mpr (to_varint_u32_ne_nil (u32_of_i32 v))
    omega
  · intro b hb
    rw [heq, List.getLast?_concat] at hb
    cases Option.some.inj hb
    exact (and_128_eq_zero_iff (by omega)).mpr hlast
  · intro b hb hc
    rw [heq, List.dropLast_concat] at hb
    have hbr := hinit b hb
    exact absurd ((and_128_eq_zero_iff (by omega)).mp hc) (by omega)
  · intro hv
    have hge : 2 ^ (7 * 4) ≤ u32_of_i32 v := by
      rw [show (2 : Nat) ^ (7 * 4) = 268435456 by norm_num]
      unfold u32_of_i32
      omega
    have h5 := to_varint_u32_length_gt 4 _ (u32_of_i32_lt v) hge
    omega

/-- Witness for `varint_encoding_minimal` at `v = -1`. -/
theorem varint_encoding_minimal_witness :
    1 ≤ (to_varint (-1)).length ∧ (to_varint (-1)).length ≤ 5 ∧
    (∀ b, (to_varint (-1)).getLast? = some b → b &&& 0x80 = 0) ∧
    (∀ b ∈ (to_varint (-1)).dropLast, b &&& 0x80 ≠ 0) ∧
    ((-1 : Int) < 0 → (to_varint (-1)).length = 5) :=
  varint_encoding_minimal (-1) (by norm_num) (by norm_num)

/-- Claim C5: The encoder matches the spec's known vectors exactly, and the
`MCString` built from the UTF-8 bytes of `"Hello!"` serializes to
`[0x06] ++ "Hello!"`. -/
theorem known_encoding_vectors :
    to_varint 0 = [0x00] ∧ to_varint 1 = [0x01] ∧ to_varint 127 = [0x7F] ∧
    to_varint 128 = [0x80, 0x01] ∧ to_varint 255 = [0xFF, 0x01] ∧
    to_varint 25565 = [0xDD, 0xC7, 0x01] ∧
    to_varint 2147483647 = [0xFF, 0xFF, 0xFF, 0xFF, 0x07] ∧
    to_varint (-1) = [0xFF, 0xFF, 0xFF, 0xFF, 0x0F] ∧
    to_varint (-2147483648) = [0x80, 0x80, 0x80, 0x80, 0x08] ∧
    (MCString.fromString [0x48, 0x65, 0x6C, 0x6C, 0x6F, 0x21]).map
        MCString.to_bytes = some [0x06, 0x48, 0x65, 0x6C, 0x6C, 0x6F, 0x21] := by
  refine ⟨?_, ?_, ?_, ?_, ?_, ?_, ?_, ?_, ?_, ?_⟩ <;>
    simp [to_varint, u32_of_i32, to_varint_u32, MCString.fromString,
      MCString.to_bytes, VarInt.from_i32, VarInt.to_bytes] <;> decide

/-- Claim C2, code-bug evidence: a `VarInt` built from a byte slice with
trailing bytes after the terminating byte stores the whole slice, so its
`bytes` field is not the minimal encoding of its `value` field. -/
theorem varint_from_bytes_trailing_bytes_bug :
    VarInt.from_bytes [0x01, 0xFF] =
        some { bytes := [0x01, 0xFF], value := 1 } ∧
    to_varint 1 = [0x01] ∧ ([0x01, 0xFF] : List Nat) ≠ [0x01] := by
  refine ⟨by decide, ?_, by decide⟩
  simp [to_varint, u32_of_i32, to_varint_u32]

/-- Claim C8: `MCString` construction succeeds exactly when the byte length
fits an i32, storing a length prefix whose value is that byte length;
longer inputs panic at construction time. -/
theorem mcstring_construction_range_check :
    (∀ s : List Nat, s.length ≤ 2 ^ 31 - 1 →
        MCString.fromString s =
            some { size := VarInt.from_i32 (s.length : Int), string := s } ∧
          (VarInt.from_i32 (s.length : Int)).value = (s.length : Int)) ∧
    (∀ s : List Nat, 2 ^ 31 - 1 < s.length → MCString.fromString s = none) := by
  constructor
  · intro s hs
    exact ⟨by unfold MCString.fromString; rw [if_pos hs], rfl⟩
  · intro s hs
    unfold MCString.fromString
    rw [if_neg (by omega)]

/-- Witness for `mcstring_construction_range_check` on the UTF-8 bytes
of `"Hello!"`. -/
theorem mcstring_construction_range_check_witness :
    MCString.fromString [0x48, 0x65, 0x6C, 0x6C, 0x6F, 0x21] =
        some { size := VarInt.from_i32 6, string := [0x48, 0x65, 0x6C, 0x6C, 0x6F, 0x21] } ∧
      (VarInt.from_i32 6).value = 6 :=
  (mcstring_construction_range_check.1
    [0x48, 0x65, 0x6C, 0x6C, 0x6F, 0x21] (by norm_num))
/-- Claim C3, counterexample: a `VarInt` decoded from a `2^31`-byte slice
is reachable, its `to_bytes()` has length `2^31`, but `size()` panics
(the `usize → i32` conversion fails), so `size()` does not equal the
length of `to_bytes()` in this reachable state. -/
theorem size_neq_to_bytes_length_on_huge_slice :
    VarInt.from_bytes (List.replicate (2 ^ 31) 0) =
        some { bytes := List.replicate (2 ^ 31) 0, value := 0 } ∧
    VarInt.size { bytes := List.replicate (2 ^ 31) 0, value := (0 : Int) } =
        none ∧
    (VarInt.to_bytes
        { bytes := List.replicate (2 ^ 31) 0, value := (0 : Int) }).length =
      2 ^ 31 := by
  have h1 : (2 ^ 31 - 1) + 1 = 2 ^ 31 := by norm_num
  have hrep :
      List.replicate (2 ^ 31) (0 : Nat) = 0 :: List.replicate (2 ^ 31 - 1) 0 := by
    conv_lhs => rw [← h1]
    rw [List.replicate_succ]
  refine ⟨?_, ?_, ?_⟩
  · unfold VarInt.from_bytes from_varint_bytes
    rw [hrep, from_varint_loop_cons, if_pos (by decide)]
    norm_num [i32_of_u32]
  · unfold VarInt.size
    rw [if_neg (by rw [List.length_replicate]; norm_num)]
  · unfold VarInt.to_bytes
    rw [List.length_replicate]

/-- Claim C3, amended: whenever the stored byte sequence's length fits an
`i32` — which covers every `VarInt` built by `from_i32`/`set` and every
`MCString`, except byte-slice constructions of at least `2^31` bytes —
`size()` returns exactly the length of `to_bytes()`. -/
theorem size_eq_to_bytes_length_of_fits :
    (∀ x : VarInt, x.bytes.length ≤ 2 ^ 31 - 1 →
        x.size = some ((x.to_bytes).length : Int)) ∧
    (∀ (s : List Nat) (m : MCString), MCString.fromString s = some m →
        (m.to_bytes).length ≤ 2 ^ 31 - 1 →
        m.size' = some ((m.to_bytes).length : Int)) := by
  constructor
  · intro x hx
    unfold VarInt.size VarInt.to_bytes
    rw [if_pos hx]
  · intro s m hm hlen
    unfold MCString.fromString at hm
    by_cases hs : s.length ≤ 2 ^ 31 - 1
    · rw [if_pos hs] at hm
      have hm' := Option.some.inj hm
      subst hm'
      have hL5 : (to_varint ((s.length : Int))).length ≤ 5 := by
        unfold to_varint
        refine to_varint_u32_length_le 5 _ (by norm_num) ?_ ?_ <;>
          · unfold u32_of_i32
            omega
      have hL1 : 1 ≤ (to_varint ((s.length : Int))).length := by
        unfold to_varint
        have := List.length_pos.mpr
          (to_varint_u32_ne_nil (u32_of_i32 ((s.length : Int))))
        omega
      have htb : (MCString.to_bytes
            { size := VarInt.from_i32 (s.length : Int), string := s }).length
          = (to_varint ((s.length : Int))).length + s.length := by
        unfold MCString.to_bytes VarInt.to_bytes VarInt.from_i32
        rw [List.length_append]
      have hlenv : VarInt.len (VarInt.from_i32 (s.length : Int))
          = ((to_varint ((s.length : Int))).length : Int) := by
        unfold VarInt.len VarInt.from_i32
        dsimp only
        rw [Nat.mod_eq_of_lt (by omega)]
        unfold i32_of_u32
        rw [if_pos (by omega)]
      rw [htb] at hlen
      unfold MCString.size'
      dsimp only
      rw [if_pos hs, hlenv, htb,
          if_pos (by constructor <;> push_cast <;> omega)]
      push_cast
      ring_nf
    · rw [if_neg hs] at hm
      exact absurd hm (by simp)

/-- Witness for `size_eq_to_bytes_length_of_fits`: the `VarInt` state
`⟨[0x00], 0⟩` (reachable by `from_i32 0`) and the `MCString` built from
the UTF-8 bytes of `"Hello!"`. -/
theorem size_eq_to_bytes_length_of_fits_witness :
    VarInt.size { bytes := [0x00], value := 0 } =
        some ((VarInt.to_bytes { bytes := [0x00], value := 0 }).length : Int) ∧
    MCString.size'
        { size := VarInt.from_i32 6,
          string := [0x48, 0x65, 0x6C, 0x6C, 0x6F, 0x21] } =
      some ((MCString.to_bytes
          { size := VarInt.from_i32 6,
            string := [0x48, 0x65, 0x6C, 0x6C, 0x6F, 0x21] }).length : Int) :=
  ⟨size_eq_to_bytes_length_of_fits.1 _ (by norm_num),
   size_eq_to_bytes_length_of_fits.2 [0x48, 0x65, 0x6C, 0x6C, 0x6F, 0x21] _
    (by simp [MCString.fromString])
    (by simp [MCString.to_bytes, VarInt.to_bytes, VarInt.from_i32, to_varint,
          u32_of_i32, to_varint_u32] <;> decide)⟩

end MCTypes
